import Mathlib

/-!
Verification development for two maintenance scripts of the MaxantAgency
repository:

* `analysis-engine/add-source-fields.py` (the Field-Injector): reads each
  analyzer file, and unless the file already contains the marker string
  `source: '<name>'`, applies two global regex substitutions that insert a
  `source` and a `source_type` field before a block-closing brace.

* `website-audit-tool/safe-refactor.py` (the Function-Stripper): reads
  `analyzer.js` as a list of lines and applies a pipeline of stages:
  named-function removal by brace-balance scanning, marker-delimited region
  removal, a targeted rename that blanks one line, and single-field line
  removal driven by `re.match` patterns.

Text is modelled as `List Char`; a file is a `List (List Char)` of lines.
Literal braces, quotes and backticks are spelled through `Char.ofNat` and
strings are assembled from clean ASCII pieces.
-/

/-! ### Character constants and Python character classes -/

/-- The apostrophe character `'` (codepoint 39). -/
def apos : Char := Char.ofNat 39

/-- The double-quote character (codepoint 34). -/
def dq : Char := Char.ofNat 34

/-- The backtick character (codepoint 96). -/
def btick : Char := Char.ofNat 96

/-- The opening brace character (codepoint 123). -/
def obr : Char := Char.ofNat 123

/-- The closing brace character (codepoint 125). -/
def cbr : Char := Char.ofNat 125

/-- The newline character (codepoint 10). -/
def nl : Char := Char.ofNat 10

/-- Python's regex class `\s`: space, TAB, LF, VT, FF, CR. -/
def isSpaceB (c : Char) : Bool :=
  c = Char.ofNat 32 || c = Char.ofNat 9 || c = Char.ofNat 10 ||
  c = Char.ofNat 11 || c = Char.ofNat 12 || c = Char.ofNat 13

/-! ### Substring containment (Python's `in` operator on strings) -/

/-- `containsSub needle hay` models Python's `needle in hay` substring test. -/
def containsSub (needle : List Char) : List Char → Bool
  | [] => needle.isEmpty
  | c :: t => needle.isPrefixOf (c :: t) || containsSub needle t

theorem pref_iff (n : List Char) : ∀ h : List Char,
    n.isPrefixOf h = true ↔ ∃ t, h = n ++ t := by
  induction n with
  | nil => intro h; simp [List.isPrefixOf]
  | cons a n ih =>
    intro h
    cases h with
    | nil => simp [List.isPrefixOf]
    | cons b t =>
      simp only [List.isPrefixOf, Bool.and_eq_true, beq_iff_eq, ih t]
      constructor
      · rintro ⟨rfl, u, rfl⟩; exact ⟨u, rfl⟩
      · rintro ⟨u, h⟩
        injection h with h1 h2
        exact ⟨h1.symm, u, h2⟩

theorem containsSub_iff (n : List Char) : ∀ h : List Char,
    containsSub n h = true ↔ ∃ s t, h = s ++ (n ++ t) := by
  intro h
  induction h with
  | nil =>
    simp only [containsSub, List.isEmpty_iff]
    constructor
    · rintro rfl; exact ⟨[], [], rfl⟩
    · rintro ⟨s, t, h⟩
      rcases List.append_eq_nil.mp h.symm with ⟨_, h2⟩
      exact (List.append_eq_nil.mp h2).1
  | cons c h ih =>
    simp only [containsSub, Bool.or_eq_true, pref_iff, ih]
    constructor
    · rintro (⟨t, ht⟩ | ⟨s, t, ht⟩)
      · exact ⟨[], t, by simp [ht]⟩
      · exact ⟨c :: s, t, by simp [ht]⟩
    · rintro ⟨s, t, ht⟩
      cases s with
      | nil => exact Or.inl ⟨t, by simpa using ht⟩
      | cons s0 s =>
        injection ht with h1 h2
        exact Or.inr ⟨s, t, h2⟩

theorem containsSub_cons_of (n : List Char) (c : Char) (t : List Char)
    (h : containsSub n t = true) : containsSub n (c :: t) = true := by
  simp [containsSub, h]

/-! ### Field-Injector (`add-source-fields.py`)

The per-file procedure: read the content, skip when the marker
`source: '<src>'` is already present, otherwise apply the two global
substitutions (pattern 1 on `priority` fields, pattern 2 on
`recommendation`/`technical_details` fields) and write the result back. -/

/-- The idempotence-guard marker string of the source:
the Python expression `f"source: '{source}'"`. -/
def markerStr (src : List Char) : List Char :=
  "source: ".toList ++ apos :: (src ++ [apos])

/-- The replacement text inserted between group 1 and group 2: the Python
replacement `",\n      source: '<src>',\n      source_type: '<ty>'"`
(backreferences `\1`/`\2` excluded). -/
def insStr (src ty : List Char) : List Char :=
  ",\n      ".toList ++
    (markerStr src ++ (",\n      source_type: ".toList ++ (apos :: (ty ++ [apos]))))

/-- The regex class `['\"]`. -/
def quoteB (c : Char) : Bool := c = apos || c = dq

/-- The alternation `(?:critical|high|medium|low)`; the four words have
distinct first letters, so first-alternative-wins is deterministic. -/
def tryWord (cs : List Char) : Option (List Char × List Char) :=
  if "critical".toList.isPrefixOf cs then some ("critical".toList, cs.drop 8)
  else if "high".toList.isPrefixOf cs then some ("high".toList, cs.drop 4)
  else if "medium".toList.isPrefixOf cs then some ("medium".toList, cs.drop 6)
  else if "low".toList.isPrefixOf cs then some ("low".toList, cs.drop 3)
  else none

/-- The literal `priority:`. -/
def prioLit : List Char := "priority:".toList

/-- Matcher for pattern 1,
`(priority:\s*['\"](?:critical|high|medium|low)['\"])([\s\n]*})`, applied at
the head of `cs`.  Returns `(group1, whitespaceOfGroup2, restAfterBrace)`.
The greedy `\s*` runs are deterministic because the following required
character (a quote, resp. the brace) is never whitespace. -/
def tryMatch1 (cs : List Char) : Option (List Char × List Char × List Char) :=
  if prioLit.isPrefixOf cs then
    let r0 := cs.drop prioLit.length
    let ws1 := r0.takeWhile isSpaceB
    let r1 := r0.dropWhile isSpaceB
    match r1 with
    | [] => none
    | q :: r2 =>
      if quoteB q then
        match tryWord r2 with
        | none => none
        | some (w, r3) =>
          match r3 with
          | [] => none
          | q2 :: r4 =>
            if quoteB q2 then
              let ws2 := r4.takeWhile isSpaceB
              let r5 := r4.dropWhile isSpaceB
              match r5 with
              | [] => none
              | c5 :: r6 =>
                if c5 = cbr then
                  some (prioLit ++ ws1 ++ q :: (w ++ [q2]), ws2, r6)
                else none
            else none
      else none
  else none

/-- The tail `([\s\n]*})` of both patterns: maximal whitespace run followed by
a closing brace. -/
def group2Check (cs : List Char) : Option (List Char × List Char) :=
  match cs.dropWhile isSpaceB with
  | [] => none
  | c :: r => if c = cbr then some (cs.takeWhile isSpaceB, r) else none

/-- The lazy quoted body `.*?['\"]` (resp. `` .*?` ``) of pattern 2 together
with its required continuation `[\s\n]*}`: scan forward for a terminator
character; at each candidate check the continuation, and on failure let the
lazy `.*?` absorb the candidate and continue.  `.` never matches a newline,
so reaching a newline fails the whole alternative. -/
def findClose (term : Char → Bool) : List Char → Nat → List Char →
    Option (List Char × List Char × List Char)
  | _, _, [] => none
  | _, 0, _ :: _ => none
  | acc, f+1, c :: cs =>
    if term c then
      match group2Check cs with
      | some (ws2, rest) => some (acc.reverse ++ [c], ws2, rest)
      | none => if c = nl then none else findClose term (c :: acc) f cs
    else if c = nl then none
    else findClose term (c :: acc) f cs

/-- The literal `recommendation:`. -/
def recLit : List Char := "recommendation:".toList

/-- The literal `technical_details:`. -/
def techLit : List Char := "technical_details:".toList

/-- The alternation `(?:recommendation|technical_details):`. -/
def tryKey (cs : List Char) : Option (List Char × List Char) :=
  if recLit.isPrefixOf cs then some (recLit, cs.drop recLit.length)
  else if techLit.isPrefixOf cs then some (techLit, cs.drop techLit.length)
  else none

/-- Matcher for pattern 2,
`((?:recommendation|technical_details):\s*(?:['\"].*?['\"]|`.*?`))([\s\n]*})`,
applied at the head of `cs`. -/
def tryMatch2 (cs : List Char) : Option (List Char × List Char × List Char) :=
  match tryKey cs with
  | none => none
  | some (key, r0) =>
    let ws1 := r0.takeWhile isSpaceB
    let r1 := r0.dropWhile isSpaceB
    match r1 with
    | [] => none
    | q :: r2 =>
      if quoteB q then
        match findClose quoteB [] r2.length r2 with
        | some (content, ws2, rest) => some (key ++ ws1 ++ q :: content, ws2, rest)
        | none => none
      else if q = btick then
        match findClose (fun c => c = btick) [] r2.length r2 with
        | some (content, ws2, rest) => some (key ++ ws1 ++ q :: content, ws2, rest)
        | none => none
      else none

/-- `re.sub` driver: scan left to right; at each position try the pattern
matcher; on a match emit `group1 ++ insertion ++ group2` and resume after the
match, otherwise keep the character and advance by one.  Fuel is the length of
the scanned text (every step consumes at least one character). -/
def subGo (try1 : List Char → Option (List Char × List Char × List Char))
    (ins : List Char) : Nat → List Char → List Char
  | 0, cs => cs
  | _+1, [] => []
  | f+1, c :: cs =>
    match try1 (c :: cs) with
    | some (g1, ws2, rest) => g1 ++ ins ++ ws2 ++ cbr :: subGo try1 ins f rest
    | none => c :: subGo try1 ins f cs

/-- Pass A: `re.sub(pattern, replacement, content)` for pattern 1. -/
def sub1 (src ty cs : List Char) : List Char :=
  subGo tryMatch1 (insStr src ty) cs.length cs

/-- Pass B: `re.sub(pattern2, replacement2, updated_content)` for pattern 2. -/
def sub2 (src ty cs : List Char) : List Char :=
  subGo tryMatch2 (insStr src ty) cs.length cs

/-- The Field-Injector per-file text transformation: the file's final content
after one loop iteration of `add-source-fields.py` (the file is rewritten
only when the result differs, so the final content is this value either
way). -/
def inject (src ty content : List Char) : List Char :=
  if containsSub (markerStr src) content then content
  else sub2 src ty (sub1 src ty content)

/-! ### Function-Stripper (`safe-refactor.py`): brace-balance extent scan

The inner scan of the named-function-removal stages: starting at the
declaration line, walk the characters of each line, adding 1 at an opening
brace (also setting the `started` flag) and subtracting 1 at a closing brace;
after every character, if `started` holds and the count is zero, the current
line is the end of the extent. -/

/-- One character step of the brace scan.  The state is
`(brace_count, started)`. -/
def stepChar (s : Int × Bool) (c : Char) : Int × Bool :=
  if c = obr then (s.1 + 1, true)
  else if c = cbr then (s.1 - 1, s.2)
  else s

/-- Does the scan trigger (`started and brace_count == 0` after some
character) within this line, entered with state `s`? -/
def lineTriggers : Int × Bool → List Char → Bool
  | _, [] => false
  | s, c :: cs =>
    let s1 := stepChar s c
    (s1.2 && decide (s1.1 = 0)) || lineTriggers s1 cs

/-- The scan state after a full line. -/
def lineFinal (s : Int × Bool) (l : List Char) : Int × Bool :=
  l.foldl stepChar s

/-- Forward scan over the lines, reporting the index (numbered from `j`) of
the first line that triggers, or `none` at end of file. -/
def findEndGo : Int × Bool → Nat → List (List Char) → Option Nat
  | _, _, [] => none
  | s, j, l :: ls =>
    if lineTriggers s l then some j
    else findEndGo (lineFinal s l) (j + 1) ls

/-- The extent's end line (absolute index) computed by the brace scan of
`safe-refactor.py`, starting at line `i`. -/
def findEnd (lines : List (List Char)) (i : Nat) : Option Nat :=
  findEndGo (0, false) i (lines.drop i)

/-! ### Declarative characterizations of the scan end (from the spec) -/

/-- Running delimiter balance of a character prefix: `{` count minus `}`
count. -/
def balInt (p : List Char) : Int :=
  (p.count obr : Int) - (p.count cbr : Int)

/-- Modelled from the spec (amended reading): at least one opening delimiter
has been scanned. -/
def condOpen (p : List Char) : Bool := decide (obr ∈ p)

/-- Modelled from the spec (claim reading): the running balance has been
strictly positive at some point of the scanned prefix. -/
def condPos (p : List Char) : Bool :=
  (List.range (p.length + 1)).any (fun k => decide (0 < balInt (p.take k)))

/-- Declarative line trigger: some nonempty character prefix of the line,
appended to the already scanned characters `pre`, has balance zero and
satisfies `cond`. -/
def specLineTrigger (cond : List Char → Bool) : List Char → List Char → Bool
  | _, [] => false
  | pre, c :: cs =>
    (decide (balInt (pre ++ [c]) = 0) && cond (pre ++ [c])) ||
      specLineTrigger cond (pre ++ [c]) cs

/-- Declarative forward scan: first line (numbered from `j`) containing a
trigger position. -/
def specEndGo (cond : List Char → Bool) :
    List Char → Nat → List (List Char) → Option Nat
  | _, _, [] => none
  | pre, j, l :: ls =>
    if specLineTrigger cond pre l then some j
    else specEndGo cond (pre ++ l) (j + 1) ls

/-- Declarative end line, scanning from line `i`: the first line at or after
`i` on which the running balance returns to exactly zero at a position where
`cond` holds of the scanned prefix. -/
def specEnd (cond : List Char → Bool) (lines : List (List Char)) (i : Nat) :
    Option Nat :=
  specEndGo cond [] i (lines.drop i)

/-! ### Named-function-removal stage (steps 2-6 of `safe-refactor.py`) -/

/-- The declaration substring searched for by step 2. -/
def extractTarget : List Char := "function extractContactInfo".toList

/-- One named-function-removal stage: scan for a line containing the target;
on a hit run the brace scan from that line; if it finds an end at relative
index `r`, resume after the extent (lines 0..r of the remaining input are
dropped); if the scan reaches end of file the declaration line is still
consumed by the loop's `continue`.  Fuel is the number of lines. -/
def stage2Go (target : List Char) : Nat → List (List Char) → List (List Char)
  | 0, ls => ls
  | _+1, [] => []
  | f+1, l :: ls =>
    if containsSub target l then
      match findEndGo (0, false) 0 (l :: ls) with
      | some r => stage2Go target f (ls.drop r)
      | none => stage2Go target f ls
    else l :: stage2Go target f ls

/-- Step 2 of `safe-refactor.py` (removal of `extractContactInfo`). -/
def stage2 (lines : List (List Char)) : List (List Char) :=
  stage2Go extractTarget lines.length lines

/-- The comment test of step 2's backward walk: the previous line contains
`/**` or `*`. -/
def commentish (l : List Char) : Bool :=
  containsSub "/**".toList l || containsSub "*".toList l

/-- The backward walk over preceding comment-marker lines computing the
adjusted start recorded in the audit list:
`while start_line > 0 and comment(lines[start_line-1]): start_line -= 1`. -/
def adjustStart (lines : List (List Char)) : Nat → Nat
  | 0 => 0
  | i+1 => if commentish (lines.getD i []) then adjustStart lines i else i + 1

/-! ### Step 7: targeted rename -/

/-- The searched line fragment `const leadGrade = result.emailQA`. -/
def needle1 : List Char := "const leadGrade = result.emailQA".toList

/-- The replaced template fragment `` `lead-${leadGrade}` ``. -/
def needle2 : List Char :=
  btick :: ("lead-$".toList ++ obr :: ("leadGrade".toList ++ cbr :: [btick]))

/-- The replacement template fragment `` `grade-${websiteGrade}` ``. -/
def repl2 : List Char :=
  btick :: ("grade-$".toList ++ obr :: ("websiteGrade".toList ++ cbr :: [btick]))

/-- Python `str.replace`: left-to-right, non-overlapping, all occurrences.
Fuel is the length of the text. -/
def replaceAllGo (needle repl : List Char) : Nat → List Char → List Char
  | 0, cs => cs
  | _+1, [] => []
  | f+1, c :: cs =>
    if needle.isPrefixOf (c :: cs) then
      repl ++ replaceAllGo needle repl f ((c :: cs).drop needle.length)
    else c :: replaceAllGo needle repl f cs

/-- Python `str.replace` at adequate fuel. -/
def replaceAll (needle repl cs : List Char) : List Char :=
  replaceAllGo needle repl cs.length cs

/-- Step 7 on one line: a line containing `needle1` is replaced by the empty
string; otherwise an occurrence of `needle2` is rewritten to `repl2`. -/
def step7Line (l : List Char) : List Char :=
  if containsSub needle1 l then []
  else if containsSub needle2 l then replaceAll needle2 repl2 l
  else l

/-- Step 7 of `safe-refactor.py`: in-place update of the line list. -/
def step7 (lines : List (List Char)) : List (List Char) :=
  lines.map step7Line

/-! ### Step 8: region removal by marker pairs -/

/-- Start marker `// 3. Save email content`. -/
def startM1 : List Char := "// 3. Save email content".toList

/-- Start marker `// 3b. Save critique reasoning`. -/
def startM2 : List Char := "// 3b. Save critique reasoning".toList

/-- Start marker `// 3c. Save QA review`. -/
def startM3 : List Char := "// 3c. Save QA review".toList

/-- End marker `// 4. Save client info`. -/
def endM1 : List Char := "// 4. Save client info".toList

/-- End marker `// 3. Save client info`. -/
def endM2 : List Char := "// 3. Save client info".toList

/-- Does a line match one of step 8's start markers? -/
def step8Start (l : List Char) : Bool :=
  containsSub startM1 l || containsSub startM2 l || containsSub startM3 l

/-- Does a line match one of step 8's end markers? -/
def step8End (l : List Char) : Bool :=
  containsSub endM1 l || containsSub endM2 l

/-- Step 8's loop: set `skip_mode` on a start marker; on an end marker clear
`skip_mode` and keep the line; otherwise keep the line exactly when not in
skip mode. -/
def step8Go : Bool → List (List Char) → List (List Char)
  | _, [] => []
  | sk, l :: ls =>
    let sk1 := if step8Start l then true else sk
    if step8End l then l :: step8Go false ls
    else if sk1 then step8Go sk1 ls
    else l :: step8Go sk1 ls

/-- Step 8 of `safe-refactor.py`. -/
def step8 (lines : List (List Char)) : List (List Char) :=
  step8Go false lines

/-- The `skip_mode` flag left by a run of step 8's loop. -/
def step8Final : Bool → List (List Char) → Bool
  | sk, [] => sk
  | sk, l :: ls =>
    let sk1 := if step8Start l then true else sk
    if step8End l then step8Final false ls else step8Final sk1 ls

/-! ### Step 10: field-line removal -/

/-- `re.match(r'\s*lit', line)` for a literal `lit` whose first character is
not whitespace: the greedy `\s*` must consume exactly the leading whitespace
run, after which `lit` must be a prefix.  (`re.match` anchors only at the
start of the string; there is no trailing anchor.) -/
def matchWs (lit l : List Char) : Bool :=
  lit.isPrefixOf (l.dropWhile isSpaceB)

/-- The literal `email: email,` of the first step-10 pattern. -/
def emailLit : List Char := "email: email,".toList

/-- Step 10's per-line drop test, in the order of the source. -/
def step10Drop (l : List Char) : Bool :=
  matchWs emailLit l ||
  matchWs "emailQA:".toList l ||
  matchWs "draft:".toList l ||
  (containsSub "critiqueReasoning:".toList l && containsSub "result.".toList l) ||
  containsSub "leadGrade: leadGrade,".toList l ||
  containsSub "extractContactInfo(".toList l ||
  matchWs "emailWriting:".toList l ||
  (matchWs "critiqueReasoning:".toList l && containsSub "true".toList l) ||
  (matchWs "qaReview:".toList l && containsSub "true".toList l) ||
  matchWs "cheapModel:".toList l

/-- Step 10 of `safe-refactor.py`: keep exactly the lines whose drop test
fails. -/
def step10 (lines : List (List Char)) : List (List Char) :=
  lines.filter (fun l => !step10Drop l)

/-- Modelled from the spec: a line that is exactly `email: email,` up to
surrounding whitespace. -/
def specEmailExact (l : List Char) : Bool :=
  let r := l.dropWhile isSpaceB
  emailLit.isPrefixOf r && (r.drop emailLit.length).all isSpaceB

/-! ### Field-Injector theorems -/

theorem subGo_unchanged_or_marker
    (try1 : List Char → Option (List Char × List Char × List Char))
    (src ty : List Char) :
    ∀ (f : Nat) (cs : List Char),
      subGo try1 (insStr src ty) f cs = cs ∨
      containsSub (markerStr src) (subGo try1 (insStr src ty) f cs) = true := by
  intro f
  induction f with
  | zero => intro cs; exact Or.inl rfl
  | succ f ih =>
    intro cs
    cases cs with
    | nil => exact Or.inl rfl
    | cons c t =>
      show subGo try1 (insStr src ty) (f+1) (c :: t) = _ ∨ _
      rw [subGo]
      cases hm : try1 (c :: t) with
      | none =>
        rcases ih t with h | h
        · exact Or.inl (by rw [h])
        · exact Or.inr (containsSub_cons_of _ _ _ h)
      | some g =>
        rcases g with ⟨g1, ws2, rest⟩
        refine Or.inr ((containsSub_iff _ _).mpr ?_)
        refine ⟨g1 ++ ",\n      ".toList,
          ",\n      source_type: ".toList ++ (apos :: (ty ++ [apos])) ++
            ws2 ++ cbr :: subGo try1 (insStr src ty) f rest, ?_⟩
        simp [insStr, markerStr, List.append_assoc]

/-- C5: Field-Injector is idempotent: for every input text, applying the
per-file injection procedure to its own output changes nothing, hence no
duplicate source/source_type fields are produced. -/
theorem inject_idem (src ty c : List Char) :
    inject src ty (inject src ty c) = inject src ty c := by
  by_cases h : containsSub (markerStr src) c = true
  · have hc : inject src ty c = c := by rw [inject, if_pos h]
    rw [hc, hc]
  · have hu : inject src ty c = sub2 src ty (sub1 src ty c) := by
      rw [inject, if_neg h]
    rw [hu]
    by_cases h2 : containsSub (markerStr src) (sub2 src ty (sub1 src ty c)) = true
    · rw [inject, if_pos h2]
    · have e2 : sub2 src ty (sub1 src ty c) = sub1 src ty c := by
        rcases subGo_unchanged_or_marker tryMatch2 src ty
            (sub1 src ty c).length (sub1 src ty c) with e | m
        · exact e
        · exact absurd m h2
      have h1 : ¬ containsSub (markerStr src) (sub1 src ty c) = true := by
        rw [← e2]; exact h2
      have e1 : sub1 src ty c = c := by
        rcases subGo_unchanged_or_marker tryMatch1 src ty c.length c with e | m
        · exact e
        · exact absurd m h1
      have hc : inject src ty c = c := by rw [hu, e2, e1]
      rw [e2, e1]
      exact hc

/-- C6: for every file text already containing the exact marker string for
its spec's source-name, the Field-Injector leaves the text unchanged (the
skip happens before any substitution pass). -/
theorem inject_marker_skip (src ty c : List Char)
    (h : containsSub (markerStr src) c = true) :
    inject src ty c = c := by
  rw [inject, if_pos h]

/-- Witness for `inject_marker_skip` at a concrete file text containing the
marker for the first spec triple. -/
theorem inject_marker_skip_witness :
    inject "seo-analyzer".toList "technical".toList
      (markerStr "seo-analyzer".toList) = markerStr "seo-analyzer".toList :=
  inject_marker_skip "seo-analyzer".toList "technical".toList
    (markerStr "seo-analyzer".toList) (by decide)

/-- The spec example input block `priority: 'critical'` followed by a newline
and a closing brace. -/
def passADemoIn : List Char :=
  "priority: ".toList ++ apos :: ("critical".toList ++ apos :: nl :: [cbr])

/-- The output the claim describes: the inserted field lines indented with
two spaces (`  source: 'seo-analyzer',` and `  source_type: 'technical'`). -/
def passAClaimOut : List Char :=
  "priority: ".toList ++ apos :: ("critical".toList ++ apos ::
    (",\n  source: ".toList ++ apos :: ("seo-analyzer".toList ++ apos ::
      (",\n  source_type: ".toList ++ apos :: ("technical".toList ++ apos ::
        nl :: [cbr])))))

/-- C7 counterexample: on the block of the claim, Pass A does not produce the
claim's two-space-indented field lines. -/
theorem passA_indent_cex :
    sub1 "seo-analyzer".toList "technical".toList passADemoIn ≠ passAClaimOut := by
  decide

/-- C7 amended: on the block `priority: 'critical'` + newline + closing brace,
Pass A appends a comma to the priority field and inserts the two fields each
on its own line indented with six hardcoded spaces
(`      source: 'seo-analyzer',` and `      source_type: 'technical'`)
immediately before the closing brace. -/
theorem passA_inserts_fields :
    sub1 "seo-analyzer".toList "technical".toList passADemoIn =
      ("priority: ".toList ++ apos :: ("critical".toList ++ [apos])) ++
        insStr "seo-analyzer".toList "technical".toList ++ nl :: [cbr] := by
  decide

/-! ### Brace-scan characterization (C1) -/

theorem count_one (a c : Char) : ([c] : List Char).count a = if c = a then 1 else 0 := by
  by_cases h : c = a <;> simp [List.count_cons, h]

theorem balInt_append_singleton (p : List Char) (c : Char) :
    balInt (p ++ [c]) =
      balInt p + (if c = obr then 1 else if c = cbr then -1 else 0) := by
  have hne : obr ≠ cbr := by decide
  unfold balInt
  rw [List.count_append, List.count_append, count_one, count_one]
  by_cases h1 : c = obr
  · subst h1
    rw [if_pos rfl, if_neg hne, if_pos rfl]
    push_cast
    ring
  · by_cases h2 : c = cbr
    · subst h2
      rw [if_neg (Ne.symm hne), if_pos rfl, if_neg (Ne.symm hne), if_pos rfl]
      push_cast
      ring
    · rw [if_neg h1, if_neg h2, if_neg h1, if_neg h2]
      push_cast
      ring

theorem condOpen_append_singleton (p : List Char) (c : Char) :
    condOpen (p ++ [c]) = (condOpen p || decide (c = obr)) := by
  simp [condOpen, List.mem_append, eq_comm]

theorem stepChar_spec (p : List Char) (c : Char) :
    stepChar (balInt p, condOpen p) c = (balInt (p ++ [c]), condOpen (p ++ [c])) := by
  rw [balInt_append_singleton, condOpen_append_singleton]
  have hne : cbr ≠ obr := by decide
  by_cases h1 : c = obr
  · simp [stepChar, h1]
  · by_cases h2 : c = cbr
    · simp [stepChar, h1, h2, hne]
      ring
    · simp [stepChar, h1, h2]

theorem lineTriggers_spec (l : List Char) : ∀ pre : List Char,
    lineTriggers (balInt pre, condOpen pre) l = specLineTrigger condOpen pre l := by
  induction l with
  | nil => intro pre; rfl
  | cons c cs ih =>
    intro pre
    show (let s1 := stepChar (balInt pre, condOpen pre) c
          (s1.2 && decide (s1.1 = 0)) || lineTriggers s1 cs) = _
    rw [specLineTrigger]
    simp only [stepChar_spec, ih (pre ++ [c])]
    rw [Bool.and_comm]

theorem lineFinal_spec (l : List Char) : ∀ pre : List Char,
    lineFinal (balInt pre, condOpen pre) l = (balInt (pre ++ l), condOpen (pre ++ l)) := by
  induction l with
  | nil => intro pre; simp [lineFinal]
  | cons c cs ih =>
    intro pre
    show lineFinal (stepChar (balInt pre, condOpen pre) c) cs = _
    rw [stepChar_spec, ih (pre ++ [c])]
    simp [List.append_assoc]

theorem findEndGo_spec (ls : List (List Char)) : ∀ (pre : List Char) (j : Nat),
    findEndGo (balInt pre, condOpen pre) j ls = specEndGo condOpen pre j ls := by
  induction ls with
  | nil => intro pre j; rfl
  | cons l ls ih =>
    intro pre j
    rw [findEndGo, specEndGo, lineTriggers_spec l pre]
    by_cases h : specLineTrigger condOpen pre l = true
    · rw [if_pos h, if_pos h]
    · rw [if_neg h, if_neg h, lineFinal_spec l pre, ih (pre ++ l) (j + 1)]

/-- C1 amended: the end line computed by the brace scan is exactly the first
line at or after the declaration line on which the running delimiter balance
equals zero at a position where at least one opening brace has already been
scanned (the code's `started` flag records an opening brace, not a positive
balance). -/
theorem findEnd_eq_openSeen_spec (lines : List (List Char)) (i : Nat) :
    findEnd lines i = specEnd condOpen lines i := by
  rw [findEnd, specEnd]
  have h0 : ((0 : Int), false) = (balInt [], condOpen []) := by decide
  rw [h0, findEndGo_spec (lines.drop i) [] i]

/-- The counterexample file for C1: the declaration line carries a closing
brace before the opening brace, so the balance is never positive although an
opening brace is seen. -/
def c1cexLines : List (List Char) :=
  [cbr :: ("function extractContactInfo() ".toList ++ [obr]), [cbr]]

/-- C1 counterexample: the stage finds the declaration on line 0 and the
brace scan marks line 0 as the extent's end, yet no line exists on which the
balance returns to zero after having been positive (the claim's
characterization yields no end line at all). -/
theorem findEnd_not_positivity_cex :
    containsSub extractTarget (c1cexLines.getD 0 []) = true ∧
    findEnd c1cexLines 0 = some 0 ∧
    specEnd condPos c1cexLines 0 = none := by
  refine ⟨by decide, by decide, by decide⟩

/-! ### Named-function removal: comment block and unbalanced scan (C2, C3) -/

/-- The failing input for C2: a one-line doc comment, the declaration line,
its closing line, and a trailing line. -/
def c2Lines : List (List Char) :=
  ["/** doc */".toList,
   "function extractContactInfo() ".toList ++ [obr],
   [cbr],
   "tail".toList]

/-- C2: the backward walk computes adjusted start 0 and the scan end is
line 2, so the claim predicts `4 - (2 - 0 + 1) = 1` remaining line; but the
stage keeps the preceding comment line (it was already emitted before the
declaration was reached), leaving 2 lines.  The audit record would claim
3 removed lines while only 2 are removed. -/
theorem stage2_comment_block_kept :
    stage2 c2Lines = ["/** doc */".toList, "tail".toList] ∧
    adjustStart c2Lines 1 = 0 ∧
    findEnd c2Lines 1 = some 2 ∧
    commentish (c2Lines.getD 0 []) = true ∧
    (stage2 c2Lines).length ≠ c2Lines.length - (2 - adjustStart c2Lines 1 + 1) := by
  refine ⟨by decide, by decide, by decide, by decide, by decide⟩

/-- The counterexample input for C3: a single declaration line whose brace
never closes. -/
def c3Lines : List (List Char) :=
  ["function extractContactInfo() ".toList ++ [obr]]

/-- C3 counterexample: on a declaration whose brace scan runs to end of file,
the stage does not leave the line sequence unchanged — the declaration line
itself is consumed. -/
theorem stage2_unbalanced_cex :
    findEnd c3Lines 0 = none ∧
    stage2 c3Lines = [] ∧
    stage2 c3Lines ≠ c3Lines := by
  refine ⟨by decide, by decide, by decide⟩

/-- C3 amended: when the stage finds a target declaration line and the brace
scan reaches end of file without triggering, no extent is marked and no
following line is skipped, but the declaration line itself is dropped by the
loop's `continue`: the stage's output is the stage applied to the remaining
lines. -/
theorem stage2_unbalanced_drops_decl (l : List Char) (post : List (List Char))
    (hl : containsSub extractTarget l = true)
    (hscan : findEnd (l :: post) 0 = none) :
    stage2 (l :: post) = stage2 post := by
  have hgo : findEndGo (0, false) 0 (l :: post) = none := by
    rw [findEnd] at hscan
    simpa using hscan
  show stage2Go extractTarget (l :: post).length (l :: post) = _
  rw [List.length_cons, stage2Go, if_pos hl, hgo]
  rfl

/-- Witness for `stage2_unbalanced_drops_decl` at a concrete unbalanced
file. -/
theorem stage2_unbalanced_drops_decl_witness :
    stage2 (("function extractContactInfo() ".toList ++ [obr]) :: ["x".toList]) =
      stage2 ["x".toList] :=
  stage2_unbalanced_drops_decl ("function extractContactInfo() ".toList ++ [obr])
    ["x".toList] (by decide) (by decide)

/-! ### Region removal by marker pairs (C4, C9) -/

theorem step8Go_no_start (xs : List (List Char)) :
    ∀ ys, (∀ l ∈ xs, step8Start l = false) →
      step8Go false (xs ++ ys) = xs ++ step8Go false ys := by
  induction xs with
  | nil => intro ys _; rfl
  | cons x xs ih =>
    intro ys hx
    have hx0 : step8Start x = false := hx x (List.mem_cons_self x xs)
    have hxs : ∀ l ∈ xs, step8Start l = false :=
      fun l hl => hx l (List.mem_cons_of_mem x hl)
    show (let sk1 := if step8Start x then true else false
          if step8End x then x :: step8Go false (xs ++ ys)
          else if sk1 then step8Go sk1 (xs ++ ys)
          else x :: step8Go sk1 (xs ++ ys)) = _
    rw [hx0]
    by_cases he : step8End x = true
    · simp only [he, if_true, if_false, ih ys hxs]
      rfl
    · simp only [he, Bool.false_eq_true, if_false, ih ys hxs]
      rfl

theorem step8Go_skipping (xs : List (List Char)) :
    ∀ ys, (∀ l ∈ xs, step8End l = false) →
      step8Go true (xs ++ ys) = step8Go true ys := by
  induction xs with
  | nil => intro ys _; rfl
  | cons x xs ih =>
    intro ys hx
    have hx0 : step8End x = false := hx x (List.mem_cons_self x xs)
    have hxs : ∀ l ∈ xs, step8End l = false :=
      fun l hl => hx l (List.mem_cons_of_mem x hl)
    show (let sk1 := if step8Start x then true else true
          if step8End x then x :: step8Go false (xs ++ ys)
          else if sk1 then step8Go sk1 (xs ++ ys)
          else x :: step8Go sk1 (xs ++ ys)) = _
    have hsk : (if step8Start x then true else true) = true := by
      by_cases h : step8Start x = true <;> simp [h]
    rw [hsk, hx0]
    simp only [Bool.false_eq_true, if_false, if_true]
    exact ih ys hxs

/-- C4: in the region-removal stage, for an input consisting of start-marker-
free context, a start-marker line, end-marker-free interior lines, an
end-marker line and start-marker-free trailing context, the start marker and
the interior are dropped, the end-marker line is kept, and all surrounding
context is preserved. -/
theorem step8_region_removal
    (pre mid post : List (List Char)) (s e : List Char)
    (hpre : ∀ l ∈ pre, step8Start l = false)
    (hs1 : step8Start s = true) (hs2 : step8End s = false)
    (hmid : ∀ l ∈ mid, step8End l = false)
    (he : step8End e = true)
    (hpost : ∀ l ∈ post, step8Start l = false) :
    step8 (pre ++ s :: (mid ++ e :: post)) = pre ++ e :: post := by
  rw [step8, step8Go_no_start pre (s :: (mid ++ e :: post)) hpre]
  congr 1
  show (let sk1 := if step8Start s then true else false
        if step8End s then s :: step8Go false (mid ++ e :: post)
        else if sk1 then step8Go sk1 (mid ++ e :: post)
        else s :: step8Go sk1 (mid ++ e :: post)) = _
  rw [hs1, hs2]
  simp only [Bool.false_eq_true, if_false, if_true]
  rw [step8Go_skipping mid (e :: post) hmid]
  show (let sk1 := if step8Start e then true else true
        if step8End e then e :: step8Go false post
        else if sk1 then step8Go sk1 post
        else e :: step8Go sk1 post) = _
  have hsk : (if step8Start e then true else true) = true := by
    by_cases h : step8Start e = true <;> simp [h]
  rw [hsk, he]
  simp only [if_true]
  congr 1
  have := step8Go_no_start post [] hpost
  simpa [step8Go] using this

/-- Witness for `step8_region_removal` on a concrete five-line file. -/
theorem step8_region_removal_witness :
    step8 (["p".toList] ++ startM1 :: (["m".toList] ++ endM1 :: ["q".toList])) =
      ["p".toList] ++ endM1 :: ["q".toList] :=
  step8_region_removal ["p".toList] ["m".toList] ["q".toList] startM1 endM1
    (by decide) (by decide) (by decide) (by decide) (by decide) (by decide)

theorem step8Go_append (xs : List (List Char)) :
    ∀ (ys : List (List Char)) (b : Bool),
      step8Go b (xs ++ ys) = step8Go b xs ++ step8Go (step8Final b xs) ys := by
  induction xs with
  | nil => intro ys b; rfl
  | cons x xs ih =>
    intro ys b
    show (let sk1 := if step8Start x then true else b
          if step8End x then x :: step8Go false (xs ++ ys)
          else if sk1 then step8Go sk1 (xs ++ ys)
          else x :: step8Go sk1 (xs ++ ys)) = _
    by_cases he : step8End x = true
    · simp only [he, if_true, ih]
      rw [step8Go, step8Final, he]
      simp
    · by_cases hs : (if step8Start x then true else b) = true
      · simp only [he, Bool.false_eq_true, if_false, hs, if_true, ih]
        rw [step8Go, step8Final]
        simp only [he, Bool.false_eq_true, if_false, hs, if_true]
      · simp only [he, Bool.false_eq_true, if_false, hs, ih]
        rw [step8Go, step8Final]
        simp only [he, Bool.false_eq_true, if_false, hs]
        simp

/-- C9: if a line matching a start marker (and no end marker) occurs and no
line from there on matches an end marker, the skip flag is never cleared and
every line from the start-marker line through the end of the file is
deleted: the stage's output is the stage applied to the preceding lines
alone. -/
theorem step8_unterminated_region
    (pre post : List (List Char)) (s : List Char)
    (hs1 : step8Start s = true) (hs2 : step8End s = false)
    (hpost : ∀ l ∈ post, step8End l = false) :
    step8 (pre ++ s :: post) = step8 pre := by
  rw [step8, step8Go_append pre (s :: post) false, step8]
  have hdrop : ∀ b : Bool, step8Go b (s :: post) = [] := by
    intro b
    show (let sk1 := if step8Start s then true else b
          if step8End s then s :: step8Go false post
          else if sk1 then step8Go sk1 post
          else s :: step8Go sk1 post) = _
    rw [hs1, hs2]
    simp only [Bool.false_eq_true, if_false, if_true]
    have := step8Go_skipping post [] hpost
    simpa using this
  rw [hdrop (step8Final false pre)]
  simp

/-- Witness for `step8_unterminated_region` on a concrete file. -/
theorem step8_unterminated_region_witness :
    step8 (["p".toList] ++ startM1 :: ["m".toList, "q".toList]) =
      step8 ["p".toList] :=
  step8_unterminated_region ["p".toList] ["m".toList, "q".toList] startM1
    (by decide) (by decide) (by decide)

/-! ### Step 7: length preservation and blanked lines (C10) -/

/-- The demonstration file for step 7: an ordinary line, the matched
`const leadGrade = result.emailQA` line, another ordinary line (each ending
in a newline, as produced by `readlines`). -/
def c10Lines : List (List Char) :=
  ["a".toList ++ [nl],
   "  const leadGrade = result.emailQA;".toList ++ [nl],
   "b".toList ++ [nl]]

/-- C10: step 7 maps lines in place, so the number of elements is always
preserved; the matched line becomes the empty string, which still counts as
an element, while the concatenation written by `writelines` contains nothing
at that position (not even an empty line). -/
theorem step7_length_preserved :
    (∀ lines : List (List Char), (step7 lines).length = lines.length) ∧
    step7 c10Lines =
      ["a".toList ++ [nl], [], "b".toList ++ [nl]] ∧
    (step7 c10Lines).length = 3 ∧
    (step7 c10Lines).flatten = ("a".toList ++ [nl]) ++ ("b".toList ++ [nl]) := by
  refine ⟨?_, by decide, by decide, by decide⟩
  intro lines
  simp [step7]

/-! ### Step 10: the `email: email,` line shape (C8) -/

theorem takeWhile_all (p : Char → Bool) (l : List Char) :
    ∀ c ∈ l.takeWhile p, p c = true := by
  induction l with
  | nil => intro c hc; simp [List.takeWhile] at hc
  | cons a t ih =>
    intro c hc
    rw [List.takeWhile] at hc
    by_cases h : p a = true
    · rw [h] at hc
      simp only [List.mem_cons] at hc
      rcases hc with rfl | hc
      · exact h
      · exact ih c hc
    · rw [Bool.not_eq_true] at h
      rw [h] at hc
      simp at hc

theorem dropWhile_append_of_all (p : Char → Bool) (ws : List Char)
    (hws : ∀ c ∈ ws, p c = true) :
    ∀ t : List Char, (ws ++ t).dropWhile p = t.dropWhile p := by
  induction ws with
  | nil => intro t; rfl
  | cons a ws ih =>
    intro t
    have ha : p a = true := hws a (List.mem_cons_self a ws)
    rw [List.cons_append, List.dropWhile, ha]
    exact ih (fun c hc => hws c (List.mem_cons_of_mem a hc)) t

theorem dropWhile_cons_neg (p : Char → Bool) (c : Char) (t : List Char)
    (h : p c = false) : (c :: t).dropWhile p = c :: t := by
  rw [List.dropWhile, h]

/-- C8 amended: a line is dropped by the email shape of step 10 exactly when
it consists of optional leading whitespace followed by the literal
`email: email,` followed by arbitrary trailing content (`re.match` anchors
only at the start, so trailing content is allowed); any line of that shape
is removed by the stage. -/
theorem step10_email_shape_char (l : List Char) :
    (matchWs emailLit l = true ↔
      ∃ ws rest, l = ws ++ (emailLit ++ rest) ∧ ∀ c ∈ ws, isSpaceB c = true) ∧
    (matchWs emailLit l = true → step10 [l] = []) := by
  constructor
  · constructor
    · intro h
      rw [matchWs, pref_iff] at h
      rcases h with ⟨t, ht⟩
      refine ⟨l.takeWhile isSpaceB, t, ?_, takeWhile_all isSpaceB l⟩
      conv_lhs => rw [← List.takeWhile_append_dropWhile (p := isSpaceB) (l := l)]
      rw [ht]
    · rintro ⟨ws, rest, rfl, hws⟩
      have he : emailLit ++ rest = 'e' :: ("mail: email,".toList ++ rest) := rfl
      rw [matchWs, dropWhile_append_of_all isSpaceB ws hws, he,
        dropWhile_cons_neg isSpaceB 'e' _ (by decide), ← he]
      rw [pref_iff]
      exact ⟨rest, rfl⟩
  · intro h
    have hd : step10Drop l = true := by
      rw [step10Drop, h]
      simp
    simp [step10, hd]

/-- Witness for `step10_email_shape_char`: a line with trailing content after
the comma is removed by step 10. -/
theorem step10_email_shape_char_witness :
    step10 ["  email: email, x".toList] = [] :=
  (step10_email_shape_char "  email: email, x".toList).2 (by decide)

/-- C8 counterexample: the line `  email: email, x` is dropped by step 10
although it is not exactly `email: email,` up to surrounding whitespace. -/
theorem step10_email_prefix_cex :
    step10 ["  email: email, x".toList, "keep".toList] = ["keep".toList] ∧
    specEmailExact "  email: email, x".toList = false := by
  refine ⟨by decide, by decide⟩
